import Mathlib

/-!
# Histogram equalization of a binary graymap (P5)

A shallow embedding of `final_code_histogram_equalization.c`.

* `unsigned char` is `Fin 256`.
* `int` is `Int`, and every `int` operation of the source is followed by `wrap32`
  (two's complement wrap-around to 32 bits).
* The fixed arrays `hist[256]`, `cdf[256]` are functions of the index; the loops that
  fill them are recursive functions following the loop bodies.
* Behaviour the C program does not define (division by zero, reading a variable that
  was never assigned, a loop that never ends) is a `Fault`.
-/

set_option maxRecDepth 8192

namespace HistEq

/-- An `unsigned char`. -/
abbrev Byte := Fin 256

/-- The ways in which a run leaves defined behaviour. -/
inductive Fault
  /-- `x / 0` on line 33. -/
  | divByZero
  /-- `INT_MIN / -1` on line 33. -/
  | divOverflow
  /-- A variable or buffer cell is read that was never assigned. -/
  | uninit
  /-- The loop `while (fgetc(fp_in) != '\n');` of line 64 meets the end of the file. -/
  | hang
  /-- A `%d` conversion reads a number that does not fit in an `int`. -/
  | convOverflow
  /-- Function `malloc` is called with a negative `int` and its result is used unchecked. -/
  | nullBuffer
  /-- Function `fopen` of the output file fails and `fp_out` is used unchecked. -/
  | nullStream
  deriving DecidableEq, Repr

deriving instance DecidableEq for Except

/-- Two's complement wrap-around of an `int` result to 32 bits. -/
def wrap32 (x : Int) : Int := (x + 2147483648) % 4294967296 - 2147483648

/-! ## `histogram_equalization` (lines 7-39) -/

/-- Lines 14-15: `for (i = 0; i < totalPixels; i++) hist[gray[i]]++;`
the samples still to visit, and the array `hist` so far. -/
def histLoop : List Byte → (Nat → Int) → (Nat → Int)
  | [], hist => hist
  | g :: gs, hist =>
    histLoop gs (fun j => if j = g.val then wrap32 (hist j + 1) else hist j)

/-- Lines 18-20: `cdf[0] = hist[0]; cdf[i] = cdf[i - 1] + hist[i]`; the value of `cdf[i]`. -/
def cdfLoop (hist : Nat → Int) : Nat → Int
  | 0 => hist 0
  | i + 1 => wrap32 (cdfLoop hist i + hist (i + 1))

/-- Lines 23-29: starting from `cdf_min = 0`, scan `k` entries from index `i` and stop at
the first `cdf[i] != 0`. -/
def cdfMinLoop (cdf : Nat → Int) : Nat → Nat → Int
  | _, 0 => 0
  | i, k + 1 => if cdf i ≠ 0 then cdf i else cdfMinLoop cdf (i + 1) k

/-- The `int` division `n / d` of C: truncating, undefined for `d = 0` and for
`INT_MIN / -1`. -/
def intDiv (n d : Int) : Except Fault Int :=
  if d = 0 then .error .divByZero
  else if n = -2147483648 ∧ d = -1 then .error .divOverflow
  else .ok (Int.tdiv n d)

/-- The conversion `(unsigned char) x`: reduction modulo 256. -/
def toUChar (x : Int) : Byte := ⟨(x % 256).toNat, by omega⟩

/-- Lines 32-34: the entries `map[0]`, ..., `map[n-1]`, computed in this order. -/
def mapLoop (cdf : Nat → Int) (cdf_min totalPixels : Int) : Nat → Except Fault (List Byte)
  | 0 => .ok []
  | i + 1 =>
    match mapLoop cdf cdf_min totalPixels i with
    | .error f => .error f
    | .ok m =>
      match intDiv (wrap32 (wrap32 (cdf i - cdf_min) * 255))
          (wrap32 (totalPixels - cdf_min)) with
      | .error f => .error f
      | .ok q => .ok (m ++ [toUChar q])

/-- The entry `map[i]` that line 33 stores when the division is defined. -/
def mapEntry (cdf : Nat → Int) (cdf_min totalPixels : Int) (i : Nat) : Byte :=
  toUChar (Int.tdiv (wrap32 (wrap32 (cdf i - cdf_min) * 255)) (wrap32 (totalPixels - cdf_min)))

/-- The array `hist` after step 1. -/
def histOf (gray : List Byte) : Nat → Int := histLoop gray (fun _ => 0)

/-- The array `cdf` after step 2. -/
def cdfOf (gray : List Byte) : Nat → Int := cdfLoop (histOf gray)

/-- The variable `cdf_min` after step 3. -/
def cdfMinOf (gray : List Byte) : Int := cdfMinLoop (cdfOf gray) 0 256

/-- The array `map` after step 4. -/
def mapOf (gray : List Byte) : Except Fault (List Byte) :=
  mapLoop (cdfOf gray) (cdfMinOf gray) (gray.length : Int) 256

/-- Function `histogram_equalization(gray, totalPixels)`: `gray` is the list of the
`totalPixels` samples of the buffer (so `totalPixels = gray.length`, an `int`), and the
result is the buffer after the call. -/
def histogram_equalization (gray : List Byte) : Except Fault (List Byte) :=
  match mapOf gray with
  | .error f => .error f
  | .ok map => .ok (gray.map (fun g => map.getD g.val 0))

/-! ## The file format: the reading and writing steps of `main` -/

/-- What `isspace` accepts: space, `\t`, `\n`, `\v`, `\f`, `\r`. -/
def isSpace (c : Byte) : Bool := c.val = 32 || (9 ≤ c.val && c.val ≤ 13)

/-- What `isdigit` accepts. -/
def isDigit (c : Byte) : Bool := 48 ≤ c.val && c.val ≤ 57

/-- Conversion `%2s` of `fscanf`: skip white space, then take at most two bytes that are
not white space. Returns the bytes stored and the rest of the stream. -/
def scanStr2 (s : List Byte) : List Byte × List Byte :=
  let s1 := s.dropWhile isSpace
  let tok := (s1.takeWhile (fun c => !isSpace c)).take 2
  (tok, s1.drop tok.length)

/-- Lines 63-66: the loop `while ((ch = fgetc(fp_in)) == '#') while (fgetc(fp_in) != '\n');`
followed by `ungetc(ch, fp_in)`. The flag tells whether the inner loop is running. -/
def skipComments : Bool → List Byte → Except Fault (List Byte)
  | false, [] => .ok []
  | false, c :: rest => if c = 35 then skipComments true rest else .ok (c :: rest)
  | true, [] => .error .hang
  | true, c :: rest => if c = 10 then skipComments false rest else skipComments true rest

/-- The digits of a `%d` conversion: the number read so far, and the stream. -/
def scanDigits : List Byte → Nat → Nat × List Byte
  | [], acc => (acc, [])
  | c :: cs, acc =>
    if isDigit c then scanDigits cs (acc * 10 + (c.val - 48)) else (acc, c :: cs)

/-- Conversion `%d` of `fscanf`: skip white space, an optional sign, then digits.
`none` is a matching failure (nothing is assigned). -/
def scanInt (s : List Byte) : Except Fault (Option Int × List Byte) :=
  let s1 := s.dropWhile isSpace
  let signed : Bool × List Byte :=
    match s1 with
    | [] => (false, [])
    | c :: cs => if c = 45 then (true, cs) else if c = 43 then (false, cs) else (false, c :: cs)
  match signed.2 with
  | [] => .ok (none, [])
  | c :: cs =>
    if isDigit c then
      let r := scanDigits (c :: cs) 0
      let v : Int := if signed.1 then -(r.1 : Int) else (r.1 : Int)
      if -2147483648 ≤ v ∧ v ≤ 2147483647 then .ok (some v, r.2) else .error .convOverflow
    else .ok (none, c :: cs)

/-- The variables of `main` after line 73. -/
structure Image where
  /-- Variable `width`. -/
  width : Int
  /-- Variable `height`. -/
  height : Int
  /-- Variable `maxval`; `none` when its conversion failed (it is never read). -/
  maxval : Option Int
  /-- Variable `totalPixels`. -/
  totalPixels : Int
  /-- The bytes that `fread` stored in `gray`. -/
  gray : List Byte
  deriving DecidableEq, Repr

/-- How lines 51-73 end. -/
inductive Loaded
  /-- The test of line 55 fails: the message of line 56, then `return 1`. -/
  | unsupported (format : List Byte)
  /-- The header and the pixels were read. -/
  | image (img : Image)
  deriving DecidableEq, Repr

/-- Lines 51-73 of `main`, on the bytes of the input file. -/
def load (s : List Byte) : Except Fault Loaded :=
  let fmt := scanStr2 s
  match fmt.1 with
  | [] => .error .uninit
  | f0 :: fs =>
    -- `format` holds the bytes read and a terminating 0
    let f1 : Byte := (fs ++ [0]).headD 0
    if f0 ≠ 80 ∨ f1 ≠ 53 then .ok (.unsupported fmt.1)
    else
      match skipComments false fmt.2 with
      | .error f => .error f
      | .ok s2 =>
        match scanInt s2 with
        | .error f => .error f
        | .ok (w, s3) =>
          -- `fscanf(fp_in, "%d %d", ...)` stops at the first conversion that fails
          match (if w.isSome then scanInt s3 else .ok (none, s3)) with
          | .error f => .error f
          | .ok (h, s4) =>
            match scanInt s4 with
            | .error f => .error f
            | .ok (mv, s5) =>
              let s6 := s5.drop 1
              match w, h with
              | some width, some height =>
                let totalPixels := wrap32 (width * height)
                if totalPixels < 0 then .error .nullBuffer
                else .ok (.image ⟨width, height, mv, totalPixels, s6.take totalPixels.toNat⟩)
              | _, _ => .error .uninit

/-- The decimal digits of `n`, most significant first, in front of `acc`. -/
def printDigits : Nat → Nat → List Byte → List Byte
  | 0, _, acc => acc
  | fuel + 1, n, acc =>
    if n < 10 then ⟨48 + n % 10, by omega⟩ :: acc
    else printDigits fuel (n / 10) (⟨48 + n % 10, by omega⟩ :: acc)

/-- Conversion `%d` of `fprintf`. -/
def printInt (v : Int) : List Byte :=
  if v < 0 then 45 :: printDigits (v.natAbs + 1) v.natAbs []
  else printDigits (v.natAbs + 1) v.natAbs []

/-- Lines 83-84: `fprintf(fp_out, "P5\n%d %d\n%d\n", width, height, MAX_VAL)` and
`fwrite(gray, 1, totalPixels, fp_out)`. -/
def write (width height : Int) (gray : List Byte) : List Byte :=
  [80, 53, 10] ++ printInt width ++ [32] ++ printInt height ++ [10] ++ printInt 255 ++ [10]
    ++ gray

/-- The lines `main` prints on the standard output. -/
inductive Msg
  /-- Line 47. -/
  | openFailed
  /-- Line 56, with the bytes of `format`. -/
  | unsupported (format : List Byte)
  /-- Line 76. -/
  | inputImage (width height : Int)
  /-- Line 87. -/
  | done
  deriving DecidableEq, Repr

/-- What a run of `main` leaves behind. -/
structure Run where
  /-- The value `main` returns. -/
  exitCode : Int
  /-- The standard output. -/
  stdout : List Msg
  /-- The bytes of `ouput.pgm`, when the file was opened. -/
  output : Option (List Byte)
  deriving DecidableEq, Repr

/-- Function `main`: `input` holds the bytes of `input.pgm` (`none` when it cannot be
opened), `outOpens` tells whether `fopen(output_filename, "wb")` succeeds. -/
def main (input : Option (List Byte)) (outOpens : Bool) : Except Fault Run :=
  match input with
  | none => .ok ⟨1, [.openFailed], none⟩
  | some s =>
    match load s with
    | .error f => .error f
    | .ok (.unsupported format) => .ok ⟨1, [.unsupported format], none⟩
    | .ok (.image img) =>
      -- cells of `gray` that `fread` did not fill are read by the equalizer
      if (img.gray.length : Int) < img.totalPixels then .error .uninit
      else
        match histogram_equalization img.gray with
        | .error f => .error f
        | .ok gray =>
          if outOpens then
            .ok ⟨0, [.inputImage img.width img.height, .done],
              some (write img.width img.height gray)⟩
          else .error .nullStream

/-! ## Derived quantities and example buffers -/

/-- The value line 33 stores for a sample `v` once steps 1 to 3 have counted exactly:
`C(v)` is the number of samples `≤ v`, and `m` the number of samples equal to `lo`. -/
def equalized (gray : List Byte) (lo v : Byte) : Byte :=
  toUChar (Int.tdiv
    (wrap32 ((((gray.countP (fun x => x.val ≤ v.val) : Nat) : Int)
      - (gray.count lo : Int)) * 255))
    ((gray.length : Int) - (gray.count lo : Int)))

/-- A buffer of three runs of 8421505 samples, holding `a`, `b` and `c`. -/
def threeLevels (a b c : Byte) : List Byte :=
  List.replicate 8421505 a ++ List.replicate 8421505 b ++ List.replicate 8421505 c

/-! # Properties -/

/-! ## Arithmetic that stays inside `int` -/

theorem wrap32_of_fits (x : Int) (h1 : -2147483648 ≤ x) (h2 : x ≤ 2147483647) :
    wrap32 x = x := by
  unfold wrap32
  omega

theorem toUChar_of_fits (x : Int) (h1 : 0 ≤ x) (h2 : x ≤ 255) :
    ((toUChar x).val : Int) = x := by
  unfold toUChar
  simp only
  omega

/-! ## Steps 1 and 2 count samples -/

theorem histLoop_eq (gray : List Byte) :
    ∀ hist : Nat → Int,
      (∀ j, 0 ≤ hist j ∧ hist j + (gray.length : Int) ≤ 2147483647) →
      ∀ j, histLoop gray hist j = hist j + ((gray.countP (fun g => g.val = j) : Nat) : Int) := by
  induction gray with
  | nil => intro hist _ j; simp [histLoop]
  | cons g gs ih =>
    intro hist hb j
    have hlen : ((g :: gs).length : Int) = (gs.length : Int) + 1 := by simp
    rw [histLoop, ih]
    · by_cases hj : j = g.val
      · have := hb j
        have hw : wrap32 (hist j + 1) = hist j + 1 := wrap32_of_fits _ (by omega) (by omega)
        have hc : List.countP (fun x : Byte => decide (x.val = j)) (g :: gs)
            = List.countP (fun x : Byte => decide (x.val = j)) gs + 1 := by
          rw [List.countP_cons_of_pos]; simp [hj]
        simp only [hj, if_true] at hw ⊢
        rw [hw]
        subst hj
        rw [hc]; push_cast; ring
      · have hc : List.countP (fun x : Byte => decide (x.val = j)) (g :: gs)
            = List.countP (fun x : Byte => decide (x.val = j)) gs := by
          rw [List.countP_cons_of_neg]; simp; exact fun h => hj h.symm
        simp only [hj, if_false]
        rw [hc]
    · intro k
      have := hb k
      by_cases hk : k = g.val
      · simp only [hk, if_true]
        have := hb g.val
        rw [wrap32_of_fits _ (by omega) (by omega)]
        omega
      · simp only [hk, if_false]
        omega

theorem histOf_eq (gray : List Byte) (hfit : gray.length ≤ 2147483647) (j : Nat) :
    histOf gray j = ((gray.countP (fun g => g.val = j) : Nat) : Int) := by
  unfold histOf
  rw [histLoop_eq gray (fun _ => 0) (fun _ => ⟨le_refl _, by simp; omega⟩) j]
  simp

theorem countP_le_succ (gray : List Byte) (i : Nat) :
    gray.countP (fun g => g.val ≤ i + 1)
      = gray.countP (fun g => g.val ≤ i) + gray.countP (fun g => g.val = i + 1) := by
  induction gray with
  | nil => simp
  | cons g gs ih =>
    simp only [List.countP_cons, ih]
    by_cases h1 : g.val ≤ i
    · have h2 : g.val ≤ i + 1 := by omega
      have h3 : ¬ g.val = i + 1 := by omega
      simp [h1, h2, h3]; omega
    · by_cases h3 : g.val = i + 1
      · have h2 : g.val ≤ i + 1 := by omega
        simp [h1, h2, h3]; omega
      · have h2 : ¬ g.val ≤ i + 1 := by omega
        simp [h1, h2, h3]

theorem cdfOf_eq (gray : List Byte) (hfit : gray.length ≤ 2147483647) (i : Nat) :
    cdfOf gray i = ((gray.countP (fun g => g.val ≤ i) : Nat) : Int) := by
  induction i with
  | zero =>
    show histOf gray 0 = _
    rw [histOf_eq gray hfit]
    congr 2
    funext g
    simp
  | succ i ih =>
    show wrap32 (cdfLoop (histOf gray) i + histOf gray (i + 1)) = _
    have ih2 : cdfLoop (histOf gray) i = _ := ih
    rw [ih2, histOf_eq gray hfit, countP_le_succ]
    have hle := List.countP_le_length (fun g : Byte => decide (g.val ≤ i + 1)) (l := gray)
    rw [countP_le_succ] at hle
    rw [wrap32_of_fits _ (by omega) (by omega)]
    push_cast; ring

/-! ## Step 3 finds the count of the darkest sample -/

theorem cdfMinLoop_eq (cdf : Nat → Int) (a : Nat) (ha : cdf a ≠ 0) :
    ∀ k i, i ≤ a → a < i + k → (∀ j, i ≤ j → j < a → cdf j = 0) →
      cdfMinLoop cdf i k = cdf a := by
  intro k
  induction k with
  | zero => intro i h1 h2; omega
  | succ k ih =>
    intro i h1 h2 hz
    rw [cdfMinLoop]
    by_cases hia : i = a
    · subst hia
      simp [ha]
    · have h0 : cdf i = 0 := hz i (le_refl _) (by omega)
      simp only [h0, ne_eq, not_true_eq_false, if_false]
      exact ih (i + 1) (by omega) (by omega) (fun j hj1 hj2 => hz j (by omega) hj2)

theorem countP_below_min (gray : List Byte) (lo : Byte) (hmin : ∀ x ∈ gray, lo ≤ x)
    (j : Nat) (hj : j < lo.val) : gray.countP (fun g => g.val ≤ j) = 0 := by
  rw [List.countP_eq_zero]
  intro x hx
  have := hmin x hx
  have h2 : lo.val ≤ x.val := this
  simp only [decide_eq_true_eq, not_le]
  omega

theorem countP_at_min (gray : List Byte) (lo : Byte) (hmin : ∀ x ∈ gray, lo ≤ x) :
    gray.countP (fun g => g.val ≤ lo.val) = gray.count lo := by
  rw [List.count]
  apply List.countP_congr
  intro x hx
  have h2 : lo.val ≤ x.val := hmin x hx
  simp only [decide_eq_true_eq, beq_iff_eq]
  constructor
  · intro h; exact Fin.ext (by omega)
  · intro h; rw [h]

theorem count_min_pos (gray : List Byte) (lo : Byte) (hlo : lo ∈ gray) : 1 ≤ gray.count lo :=
  List.count_pos_iff.mpr hlo

theorem cdfMinOf_eq (gray : List Byte) (lo : Byte) (hlo : lo ∈ gray)
    (hmin : ∀ x ∈ gray, lo ≤ x) (hfit : gray.length ≤ 2147483647) :
    cdfMinOf gray = (gray.count lo : Int) := by
  have hpos := count_min_pos gray lo hlo
  have hat : cdfOf gray lo.val = (gray.count lo : Int) := by
    rw [cdfOf_eq gray hfit, countP_at_min gray lo hmin]
  unfold cdfMinOf
  rw [cdfMinLoop_eq (cdfOf gray) lo.val (by rw [hat]; omega) 256 0 (Nat.zero_le _)
    (by have := lo.isLt; omega)
    (fun j _ hj => by rw [cdfOf_eq gray hfit, countP_below_min gray lo hmin j hj]; simp)]
  exact hat

theorem count_lt_length (gray : List Byte) (lo : Byte) (hne : ∃ x ∈ gray, x ≠ lo) :
    gray.count lo < gray.length := by
  rcases hne with ⟨x, hx, hxl⟩
  rcases Nat.lt_or_ge (gray.count lo) gray.length with h | h
  · exact h
  · have h2 : gray.count lo = gray.length := le_antisymm (List.count_le_length _ _) h
    rw [List.count_eq_length] at h2
    exact absurd (h2 x hx).symm hxl

/-! ## Step 4 -/

theorem mapLoop_ok (cdf : Nat → Int) (cdf_min totalPixels : Int)
    (hd : 1 ≤ wrap32 (totalPixels - cdf_min)) (n : Nat) :
    mapLoop cdf cdf_min totalPixels n
      = .ok ((List.range n).map (mapEntry cdf cdf_min totalPixels)) := by
  induction n with
  | zero => simp [mapLoop]
  | succ n ih =>
    rw [mapLoop, ih]
    have h1 : ¬ wrap32 (totalPixels - cdf_min) = 0 := by omega
    have h2 : ¬ wrap32 (totalPixels - cdf_min) = -1 := by omega
    simp [intDiv, h1, h2, List.range_succ, mapEntry]

theorem mapLoop_divByZero (cdf : Nat → Int) (cdf_min totalPixels : Int)
    (hd : wrap32 (totalPixels - cdf_min) = 0) (n : Nat) :
    mapLoop cdf cdf_min totalPixels (n + 1) = .error .divByZero := by
  induction n with
  | zero => simp [mapLoop, intDiv, hd]
  | succ n ih => rw [mapLoop, ih]

theorem getD_map_range (f : Nat → Byte) (n i : Nat) (hi : i < n) :
    ((List.range n).map f).getD i 0 = f i := by
  rw [List.getD_eq_getElem _ _ (by simpa using hi)]
  simp

/-- The buffer after the call, whenever the counts fit in an `int` and two intensities
are present: each sample `g` becomes
`(unsigned char) (wrap32 ((C(g) - m) * 255) / (count - m))`. -/
theorem histogram_equalization_eq (gray : List Byte) (lo : Byte) (hlo : lo ∈ gray)
    (hmin : ∀ x ∈ gray, lo ≤ x) (hne : ∃ x ∈ gray, x ≠ lo)
    (hfit : gray.length ≤ 2147483647) :
    histogram_equalization gray
      = .ok (gray.map (fun g => toUChar (Int.tdiv
          (wrap32 ((((gray.countP (fun x => x.val ≤ g.val) : Nat) : Int)
            - (gray.count lo : Int)) * 255))
          ((gray.length : Int) - (gray.count lo : Int))))) := by
  have hm := cdfMinOf_eq gray lo hlo hmin hfit
  have hlt := count_lt_length gray lo hne
  have hd : wrap32 ((gray.length : Int) - cdfMinOf gray)
      = (gray.length : Int) - (gray.count lo : Int) := by
    rw [hm, wrap32_of_fits _ (by omega) (by omega)]
  unfold histogram_equalization mapOf
  rw [mapLoop_ok _ _ _ (by rw [hd]; omega)]
  simp only
  congr 1
  apply List.map_congr_left
  intro g _
  rw [getD_map_range _ _ _ g.isLt]
  unfold mapEntry
  rw [hd, cdfOf_eq gray hfit, hm]
  have hle := List.countP_le_length (fun x : Byte => decide (x.val ≤ g.val)) (l := gray)
  rw [wrap32_of_fits ((((gray.countP (fun x => x.val ≤ g.val) : Nat) : Int)
            - (gray.count lo : Int))) (by omega) (by omega)]

/-! ## The equalized buffer when nothing overflows -/

theorem mapValue_exact (a b : Int) (h0 : 0 ≤ a) (hab : a ≤ b) (hb1 : 1 ≤ b)
    (hb : b ≤ 8421504) :
    ((toUChar (Int.tdiv (wrap32 (a * 255)) b)).val : Int) = a * 255 / b := by
  rw [wrap32_of_fits _ (by omega) (by omega), Int.tdiv_eq_ediv (by omega) (by omega)]
  apply toUChar_of_fits
  · exact Int.ediv_nonneg (by omega) (by omega)
  · exact Int.ediv_le_of_le_mul (by omega) (by omega)

theorem countP_le_eq_val (gray : List Byte) (v : Byte) :
    gray.countP (fun x => x ≤ v) = gray.countP (fun x => x.val ≤ v.val) := by
  apply List.countP_congr
  intro x _
  simp only [decide_eq_true_eq]
  exact Fin.le_def

theorem count_min_le_countP (gray : List Byte) (lo : Byte) (hmin : ∀ x ∈ gray, lo ≤ x)
    (v : Byte) (hv : v ∈ gray) :
    gray.count lo ≤ gray.countP (fun x => x.val ≤ v.val) := by
  rw [← countP_at_min gray lo hmin]
  apply List.countP_mono_left
  intro x _ hx
  have h1 : lo.val ≤ v.val := hmin v hv
  simp only [decide_eq_true_eq] at hx ⊢
  omega

/-- The value line 33 stores for a sample `v` of the buffer when nothing overflows:
`((C(v) - m) * 255) / (count - m)`, as a natural number below 256. -/
theorem mapped_sample (gray : List Byte) (lo : Byte) (hmin : ∀ x ∈ gray, lo ≤ x)
    (hne : ∃ x ∈ gray, x ≠ lo) (hfit : gray.length ≤ 8421504) (v : Byte) (hv : v ∈ gray) :
    ((toUChar (Int.tdiv
        (wrap32 ((((gray.countP (fun x => x.val ≤ v.val) : Nat) : Int)
          - (gray.count lo : Int)) * 255))
        ((gray.length : Int) - (gray.count lo : Int)))).val : Int)
      = (((gray.countP (fun x => x ≤ v) : Nat) : Int) - (gray.count lo : Int)) * 255
          / ((gray.length : Int) - (gray.count lo : Int)) := by
  have h1 := count_min_le_countP gray lo hmin v hv
  have h2 := List.countP_le_length (fun x : Byte => decide (x.val ≤ v.val)) (l := gray)
  have h3 := count_lt_length gray lo hne
  rw [countP_le_eq_val]
  exact mapValue_exact _ _ (by omega) (by omega) (by omega) (by omega)

/-- C1. For a buffer with at least two distinct intensities and at most 8421504 samples
(`lo` being the smallest intensity present), `histogram_equalization` returns a buffer of the
same length whose sample at every position `p` is
`floor(((C(v) - m) * 255) / (count - m))`, where `v` is the original sample at `p`,
`C(v)` the number of original samples `≤ v` and `m` the number of samples equal to `lo`. -/
theorem equalization_formula (gray : List Byte) (lo : Byte) (hlo : lo ∈ gray)
    (hmin : ∀ x ∈ gray, lo ≤ x) (hne : ∃ x ∈ gray, x ≠ lo) (hfit : gray.length ≤ 8421504) :
    ∃ out, histogram_equalization gray = .ok out ∧ out.length = gray.length ∧
      ∀ (p : Nat) (hp : p < gray.length) (hq : p < out.length),
        ((out[p].val : Nat) : Int)
          = (((gray.countP (fun x => x ≤ gray[p]) : Nat) : Int) - (gray.count lo : Int)) * 255
              / ((gray.length : Int) - (gray.count lo : Int)) := by
  refine ⟨_, histogram_equalization_eq gray lo hlo hmin hne (by omega), by simp, ?_⟩
  intro p hp hq
  rw [List.getElem_map]
  exact mapped_sample gray lo hmin hne hfit gray[p] (List.getElem_mem _)

/-- C1, at the buffer of the specification: `[0,0,1,1,2,2,3,3]` becomes
`[0,0,85,85,170,170,255,255]`. -/
theorem equalization_formula_witness :
    histogram_equalization [0, 0, 1, 1, 2, 2, 3, 3] = .ok [0, 0, 85, 85, 170, 170, 255, 255] ∧
    ∃ out, histogram_equalization [0, 0, 1, 1, 2, 2, 3, 3] = .ok out ∧
      out.length = ([0, 0, 1, 1, 2, 2, 3, 3] : List Byte).length ∧
      ∀ (p : Nat) (hp : p < ([0, 0, 1, 1, 2, 2, 3, 3] : List Byte).length) (hq : p < out.length),
        ((out[p].val : Nat) : Int)
          = (((([0, 0, 1, 1, 2, 2, 3, 3] : List Byte).countP
                (fun x => x ≤ ([0, 0, 1, 1, 2, 2, 3, 3] : List Byte)[p]) : Nat) : Int)
              - (([0, 0, 1, 1, 2, 2, 3, 3] : List Byte).count 0 : Int)) * 255
              / ((([0, 0, 1, 1, 2, 2, 3, 3] : List Byte).length : Int)
                - (([0, 0, 1, 1, 2, 2, 3, 3] : List Byte).count 0 : Int)) :=
  ⟨by decide,
    equalization_formula [0, 0, 1, 1, 2, 2, 3, 3] 0 (by simp) (by simp)
      ⟨1, by simp, by simp⟩ (by simp)⟩

/-- C4. For a buffer with at least two distinct intensities and at most 8421504 samples,
every sample that held the smallest intensity present becomes 0, so 0 occurs in the output
and is its minimum, and every output sample is at most 255. -/
theorem darkest_maps_to_zero (gray : List Byte) (lo : Byte) (hlo : lo ∈ gray)
    (hmin : ∀ x ∈ gray, lo ≤ x) (hne : ∃ x ∈ gray, x ≠ lo) (hfit : gray.length ≤ 8421504) :
    ∃ out, histogram_equalization gray = .ok out ∧
      (∀ (p : Nat) (hp : p < gray.length) (hq : p < out.length),
        gray[p] = lo → out[p] = 0) ∧
      (0 : Byte) ∈ out ∧ (∀ y ∈ out, (0 : Byte) ≤ y) ∧ (∀ y ∈ out, y.val ≤ 255) := by
  have hzero : ∀ v ∈ gray, v = lo →
      toUChar (Int.tdiv
        (wrap32 ((((gray.countP (fun x => x.val ≤ v.val) : Nat) : Int)
          - (gray.count lo : Int)) * 255))
        ((gray.length : Int) - (gray.count lo : Int))) = 0 := by
    intro v hv hvl
    apply Fin.ext
    have h := mapped_sample gray lo hmin hne hfit v hv
    have hC : gray.countP (fun x => x ≤ v) = gray.count lo := by
      rw [countP_le_eq_val, hvl, countP_at_min gray lo hmin]
    rw [hC, sub_self, zero_mul, Int.zero_ediv] at h
    have h2 : (0 : Byte).val = 0 := rfl
    rw [h2]
    exact_mod_cast h
  refine ⟨_, histogram_equalization_eq gray lo hlo hmin hne (by omega), ?_, ?_, ?_, ?_⟩
  · intro p hp hq hpl
    rw [List.getElem_map]
    exact hzero _ (List.getElem_mem _) hpl
  · rw [List.mem_map]
    exact ⟨lo, hlo, hzero lo hlo rfl⟩
  · intro y _
    exact Fin.zero_le y
  · intro y _
    have := y.isLt
    omega

/-- C4, at the buffer `[3, 9, 3, 200]`: the two samples 3 become 0. -/
theorem darkest_maps_to_zero_witness :
    ∃ out, histogram_equalization [3, 9, 3, 200] = .ok out ∧
      (∀ (p : Nat) (hp : p < ([3, 9, 3, 200] : List Byte).length) (hq : p < out.length),
        ([3, 9, 3, 200] : List Byte)[p] = 3 → out[p] = 0) ∧
      (0 : Byte) ∈ out ∧ (∀ y ∈ out, (0 : Byte) ≤ y) ∧ (∀ y ∈ out, y.val ≤ 255) :=
  darkest_maps_to_zero [3, 9, 3, 200] 3 (by simp) (by decide) ⟨9, by simp, by decide⟩
    (by simp)

/-! ## Buffers on which line 33 divides by zero -/

/-- C2. Every buffer of `count ≥ 1` samples (an `int`) that all hold the same intensity
makes line 33 divide by zero: the call faults instead of returning the buffer. -/
theorem constant_buffer_divides_by_zero (gray : List Byte) (v : Byte) (hpos : gray ≠ [])
    (hconst : ∀ x ∈ gray, x = v) (hfit : gray.length ≤ 2147483647) :
    histogram_equalization gray = .error .divByZero := by
  have hv : v ∈ gray := by
    cases gray with
    | nil => exact absurd rfl hpos
    | cons g gs =>
      have := hconst g (List.mem_cons_self _ _)
      rw [← this]; exact List.mem_cons_self _ _
  have hm := cdfMinOf_eq gray v hv (fun x hx => by rw [hconst x hx]) hfit
  have hc : gray.count v = gray.length := List.count_eq_length.mpr (fun x hx => (hconst x hx).symm)
  unfold histogram_equalization mapOf
  rw [mapLoop_divByZero _ _ _ (by rw [hm, hc]; simp [wrap32])]

/-- C2, at the buffer `[42]` of the specification. -/
theorem constant_buffer_divides_by_zero_witness :
    histogram_equalization [42] = .error .divByZero :=
  constant_buffer_divides_by_zero [42] 42 (by simp) (by simp) (by simp)

/-- C3. On the empty buffer there is no check of `count`: steps 1 to 3 leave `cdf_min = 0`
and line 33 divides by `0 - 0`. -/
theorem empty_buffer_divides_by_zero :
    cdfMinOf [] = 0 ∧ histogram_equalization [] = .error .divByZero := by
  decide

/-! ## Idempotence -/

theorem not_idempotent_first :
    histogram_equalization ([0, 1, 2] ++ List.replicate 255 3)
      = .ok ([0, 0, 1] ++ List.replicate 255 255) := by
  rw [histogram_equalization_eq _ 0 (by simp) (fun x _ => Fin.zero_le x) ⟨1, by simp, by decide⟩
    (by simp)]
  simp only [List.map_append, List.map_cons, List.map_nil, List.map_replicate,
    List.countP_append, List.countP_cons, List.countP_nil, List.countP_replicate,
    List.count_append, List.count_cons, List.count_nil, List.count_replicate,
    List.length_append, List.length_cons, List.length_nil, List.length_replicate]
  decide

theorem not_idempotent_second :
    histogram_equalization ([0, 0, 1] ++ List.replicate 255 255)
      = .ok ([0, 0, 0] ++ List.replicate 255 255) := by
  rw [histogram_equalization_eq _ 0 (by simp) (fun x _ => Fin.zero_le x) ⟨1, by simp, by decide⟩
    (by simp)]
  simp only [List.map_append, List.map_cons, List.map_nil, List.map_replicate,
    List.countP_append, List.countP_cons, List.countP_nil, List.countP_replicate,
    List.count_append, List.count_cons, List.count_nil, List.count_replicate,
    List.length_append, List.length_cons, List.length_nil, List.length_replicate]
  decide

theorem exists_darkest (gray : List Byte) (hpos : gray ≠ []) :
    ∃ lo ∈ gray, ∀ x ∈ gray, lo ≤ x := by
  induction gray with
  | nil => exact absurd rfl hpos
  | cons g gs ih =>
    by_cases hgs : gs = []
    · subst hgs
      exact ⟨g, by simp, by simp⟩
    · rcases ih hgs with ⟨lo, hlo, hmin⟩
      by_cases hg : g ≤ lo
      · refine ⟨g, by simp, ?_⟩
        intro x hx
        rcases List.mem_cons.mp hx with h | h
        · rw [h]
        · exact le_trans hg (hmin x h)
      · refine ⟨lo, List.mem_cons_of_mem _ hlo, ?_⟩
        intro x hx
        rcases List.mem_cons.mp hx with h | h
        · rw [h]; exact le_of_lt (not_le.mp hg)
        · exact hmin x h

theorem exists_other (gray : List Byte) (lo : Byte)
    (h2 : ∃ x ∈ gray, ∃ y ∈ gray, x ≠ y) : ∃ x ∈ gray, x ≠ lo := by
  rcases h2 with ⟨x, hx, y, hy, hxy⟩
  by_cases h : x = lo
  · exact ⟨y, hy, fun hyl => hxy (by rw [h, hyl])⟩
  · exact ⟨x, hx, h⟩

theorem countP_le_add_count (gray : List Byte) (u v : Byte) (huv : u < v) :
    gray.countP (fun x => x.val ≤ u.val) + gray.count v
      ≤ gray.countP (fun x => x.val ≤ v.val) := by
  have huv2 : u.val < v.val := huv
  induction gray with
  | nil => simp
  | cons g gs ih =>
    rw [List.countP_cons, List.countP_cons, List.count_cons]
    by_cases h1 : g.val ≤ u.val
    · have h2 : g.val ≤ v.val := by omega
      have h3 : ¬ g = v := fun h => by rw [h] at h1; omega
      simp only [h1, h2, h3, decide_True, if_true, beq_iff_eq, if_false]
      omega
    · by_cases h3 : g = v
      · subst h3
        have h4 : ¬ g.val ≤ u.val := h1
        simp only [h4, decide_False, Bool.false_eq_true, if_false, le_refl, decide_True,
          if_true, beq_self_eq_true] at ih ⊢
        omega
      · by_cases h2 : g.val ≤ v.val
        · simp only [h1, h2, h3, decide_False, decide_True, Bool.false_eq_true, if_false,
            if_true, beq_iff_eq]
          omega
        · simp only [h1, h2, h3, decide_False, Bool.false_eq_true, if_false, beq_iff_eq]
          omega

theorem length_le_of_uniform (gray : List Byte) (k : Nat)
    (hu : ∀ x ∈ gray, gray.count x = k) : gray.length ≤ 256 * k := by
  rw [← List.sum_toFinset_count_eq_length gray]
  calc ∑ a ∈ gray.toFinset, gray.count a
      = ∑ _a ∈ gray.toFinset, k :=
        Finset.sum_congr rfl (fun a ha => hu a (List.mem_toFinset.mp ha))
    _ = gray.toFinset.card * k := by rw [Finset.sum_const, smul_eq_mul]
    _ ≤ 256 * k := by
        apply Nat.mul_le_mul_right
        have := Finset.card_le_univ gray.toFinset
        simpa using this

theorem equalized_strictMono_of_uniform (gray : List Byte) (lo : Byte)
    (hmin : ∀ x ∈ gray, lo ≤ x) (hne : ∃ x ∈ gray, x ≠ lo) (hfit : gray.length ≤ 8421504)
    (k : Nat) (hu : ∀ x ∈ gray, gray.count x = k) (hlo : lo ∈ gray) :
    ∀ u ∈ gray, ∀ v ∈ gray, u < v → equalized gray lo u < equalized gray lo v := by
  intro u hu1 v hv1 huv
  have hU := mapped_sample gray lo hmin hne hfit u hu1
  have hV := mapped_sample gray lo hmin hne hfit v hv1
  rw [countP_le_eq_val] at hU hV
  have hstep := countP_le_add_count gray u v huv
  rw [hu v hv1] at hstep
  have hk : gray.count lo = k := hu lo hlo
  have hlen := length_le_of_uniform gray k hu
  have hlt := count_lt_length gray lo hne
  have hCu := count_min_le_countP gray lo hmin u hu1
  rw [hk] at hU hV hlt hCu
  show (equalized gray lo u).val < (equalized gray lo v).val
  unfold equalized
  rw [hk]
  have key : (((gray.countP (fun x => x.val ≤ u.val) : Nat) : Int) - (k : Int)) * 255
        / ((gray.length : Int) - (k : Int)) + 1
      ≤ (((gray.countP (fun x => x.val ≤ v.val) : Nat) : Int) - (k : Int)) * 255
        / ((gray.length : Int) - (k : Int)) := by
    have hd : (0 : Int) < (gray.length : Int) - (k : Int) := by omega
    rw [← Int.add_mul_ediv_right _ 1 (ne_of_gt hd)]
    apply Int.ediv_le_ediv hd
    omega
  omega

theorem equalized_min (gray : List Byte) (lo : Byte) (hmin : ∀ x ∈ gray, lo ≤ x) :
    equalized gray lo lo = 0 := by
  unfold equalized
  rw [countP_at_min gray lo hmin, sub_self, zero_mul]
  apply Fin.ext
  simp [wrap32, toUChar]

theorem histogram_equalization_eq_map (gray : List Byte) (lo : Byte) (hlo : lo ∈ gray)
    (hmin : ∀ x ∈ gray, lo ≤ x) (hne : ∃ x ∈ gray, x ≠ lo)
    (hfit : gray.length ≤ 2147483647) :
    histogram_equalization gray = .ok (gray.map (equalized gray lo)) :=
  histogram_equalization_eq gray lo hlo hmin hne hfit

/-- Equalizing once more changes nothing when the first pass kept the present
intensities apart. -/
theorem second_pass_of_strictMono (gray : List Byte) (lo : Byte) (hlo : lo ∈ gray)
    (hmin : ∀ x ∈ gray, lo ≤ x) (hne : ∃ x ∈ gray, x ≠ lo)
    (hfit : gray.length ≤ 2147483647)
    (hmono : ∀ u ∈ gray, ∀ v ∈ gray, u < v → equalized gray lo u < equalized gray lo v) :
    histogram_equalization (gray.map (equalized gray lo))
      = .ok (gray.map (equalized gray lo)) := by
  have hzero := equalized_min gray lo hmin
  have hle : ∀ x ∈ gray, ∀ v ∈ gray,
      ((equalized gray lo x).val ≤ (equalized gray lo v).val ↔ x.val ≤ v.val) := by
    intro x hx v hv
    constructor
    · intro h
      by_contra hc
      have hvx : v < x := by
        show v.val < x.val
        omega
      have h2 : (equalized gray lo v).val < (equalized gray lo x).val := hmono v hv x hx hvx
      omega
    · intro h
      rcases Nat.lt_or_ge x.val v.val with h1 | h1
      · have h2 : (equalized gray lo x).val < (equalized gray lo v).val := hmono x hx v hv h1
        omega
      · have hxv : x = v := Fin.ext (by omega)
        rw [hxv]
  have hcount : ∀ v ∈ gray,
      (gray.map (equalized gray lo)).countP (fun y => y.val ≤ (equalized gray lo v).val)
        = gray.countP (fun x => x.val ≤ v.val) := by
    intro v hv
    rw [List.countP_map]
    apply List.countP_congr
    intro x hx
    simp only [Function.comp, decide_eq_true_eq]
    exact hle x hx v hv
  have hm : (gray.map (equalized gray lo)).count 0 = gray.count lo := by
    rw [← countP_at_min gray lo hmin, ← hcount lo hlo, hzero]
    exact (countP_at_min _ 0 (fun x _ => Fin.zero_le x)).symm
  have hne2 : ∃ y ∈ gray.map (equalized gray lo), y ≠ 0 := by
    rcases hne with ⟨x, hx, hxl⟩
    refine ⟨equalized gray lo x, List.mem_map_of_mem _ hx, ?_⟩
    have hlt : lo < x := lt_of_le_of_ne (hmin x hx) (Ne.symm hxl)
    have := hmono lo hlo x hx hlt
    rw [hzero] at this
    exact Fin.ne_of_gt this
  rw [histogram_equalization_eq_map _ 0
    (by rw [← hzero]; exact List.mem_map_of_mem _ hlo) (fun x _ => Fin.zero_le x) hne2
    (by simpa using hfit)]
  rw [List.map_map]
  congr 1
  apply List.map_congr_left
  intro v hv
  simp only [Function.comp]
  show equalized (gray.map (equalized gray lo)) 0 (equalized gray lo v) = equalized gray lo v
  have hdef : ∀ w, equalized (gray.map (equalized gray lo)) 0 w
      = toUChar (Int.tdiv
          (wrap32 (((((gray.map (equalized gray lo)).countP (fun x => x.val ≤ w.val) : Nat) : Int)
            - ((gray.map (equalized gray lo)).count 0 : Int)) * 255))
          (((gray.map (equalized gray lo)).length : Int)
            - ((gray.map (equalized gray lo)).count 0 : Int))) := fun _ => rfl
  rw [hdef, hcount v hv, hm, List.length_map]
  rfl

/-- C5 (amended). For a buffer of at most 8421504 samples in which every intensity that
occurs occurs the same number `k` of times and at least two intensities occur, a second
call of `histogram_equalization` returns the buffer the first call returned. -/
theorem idempotent_of_uniform (gray : List Byte) (k : Nat)
    (hu : ∀ x ∈ gray, gray.count x = k) (h2 : ∃ x ∈ gray, ∃ y ∈ gray, x ≠ y)
    (hfit : gray.length ≤ 8421504) :
    ∃ once, histogram_equalization gray = .ok once ∧
      histogram_equalization once = .ok once := by
  have hpos : gray ≠ [] := by
    rcases h2 with ⟨x, hx, _⟩
    exact List.ne_nil_of_mem hx
  rcases exists_darkest gray hpos with ⟨lo, hlo, hmin⟩
  have hne := exists_other gray lo h2
  refine ⟨_, histogram_equalization_eq_map gray lo hlo hmin hne (by omega), ?_⟩
  exact second_pass_of_strictMono gray lo hlo hmin hne (by omega)
    (equalized_strictMono_of_uniform gray lo hmin hne hfit k hu hlo)

/-- C5 (amended), at the buffer `[0,0,1,1,2,2,3,3]`, where every intensity occurs twice. -/
theorem idempotent_of_uniform_witness :
    ∃ once, histogram_equalization [0, 0, 1, 1, 2, 2, 3, 3] = .ok once ∧
      histogram_equalization once = .ok once :=
  idempotent_of_uniform [0, 0, 1, 1, 2, 2, 3, 3] 2 (by decide) (by decide) (by simp)

theorem ok_replicate3_congr (k : Nat) (a b c a2 b2 c2 : Byte) (ha : a = a2) (hb : b = b2)
    (hc : c = c2) :
    (Except.ok (List.replicate k a ++ List.replicate k b ++ List.replicate k c)
        : Except Fault (List Byte))
      = .ok (List.replicate k a2 ++ List.replicate k b2 ++ List.replicate k c2) := by
  rw [ha, hb, hc]

/-- C5 as stated fails once the products overflow: three intensities, each held by
8421505 samples. The first call maps 0, 1, 2 to 0, 129, 0, the second maps 129 to 2. -/
theorem uniform_not_idempotent_when_overflowing :
    (∀ x ∈ threeLevels 0 1 2, (threeLevels 0 1 2).count x = 8421505) ∧
    (0 : Byte) ∈ threeLevels 0 1 2 ∧ (1 : Byte) ∈ threeLevels 0 1 2 ∧
    histogram_equalization (threeLevels 0 1 2) = .ok (threeLevels 0 129 0) ∧
    histogram_equalization (threeLevels 0 129 0) = .ok (threeLevels 0 2 0) ∧
    threeLevels 0 2 0 ≠ threeLevels 0 129 0 := by
  have hmem : ∀ (a b c x : Byte), (x = a ∨ x = b ∨ x = c) → x ∈ threeLevels a b c := by
    intro a b c x hx
    unfold threeLevels
    simp only [List.mem_append, List.mem_replicate]
    rcases hx with h | h | h
    · exact Or.inl (Or.inl ⟨by omega, h⟩)
    · exact Or.inl (Or.inr ⟨by omega, h⟩)
    · exact Or.inr ⟨by omega, h⟩
  have hlen : ∀ a b c : Byte, (threeLevels a b c).length ≤ 2147483647 := by
    intro a b c
    unfold threeLevels
    simp only [List.length_append, List.length_replicate]
    omega
  refine ⟨?_, hmem _ _ _ _ (Or.inl rfl), hmem _ _ _ _ (Or.inr (Or.inl rfl)), ?_, ?_, ?_⟩
  · intro x hx
    unfold threeLevels at hx ⊢
    simp only [List.mem_append, List.mem_replicate] at hx
    rcases hx with (⟨_, h⟩ | ⟨_, h⟩) | ⟨_, h⟩ <;> subst h <;>
      simp only [List.count_append, List.count_replicate] <;> decide
  · rw [histogram_equalization_eq _ 0 (hmem _ _ _ _ (Or.inl rfl)) (fun x _ => Fin.zero_le x)
      ⟨1, hmem _ _ _ _ (Or.inr (Or.inl rfl)), by decide⟩ (hlen _ _ _)]
    unfold threeLevels
    simp only [List.map_append, List.map_replicate,
      List.countP_append, List.countP_replicate,
      List.count_append, List.count_replicate,
      List.length_append, List.length_replicate]
    exact ok_replicate3_congr _ _ _ _ _ _ _ (by decide) (by decide) (by decide)
  · rw [histogram_equalization_eq _ 0 (hmem _ _ _ _ (Or.inl rfl)) (fun x _ => Fin.zero_le x)
      ⟨129, hmem _ _ _ _ (Or.inr (Or.inl rfl)), by decide⟩ (hlen _ _ _)]
    unfold threeLevels
    simp only [List.map_append, List.map_replicate,
      List.countP_append, List.countP_replicate,
      List.count_append, List.count_replicate,
      List.length_append, List.length_replicate]
    exact ok_replicate3_congr _ _ _ _ _ _ _ (by decide) (by decide) (by decide)
  · intro h
    have h1 : (129 : Byte) ∈ threeLevels 0 129 0 := hmem _ _ _ _ (Or.inr (Or.inl rfl))
    rw [← h] at h1
    unfold threeLevels at h1
    simp only [List.mem_append, List.mem_replicate] at h1
    rcases h1 with (⟨_, h⟩ | ⟨_, h⟩) | ⟨_, h⟩ <;> exact absurd h (by decide)

/-- C6. Idempotence fails in general: on the 258 samples `0, 1, 2, 3, ..., 3` (nothing
overflows) the first call gives `0, 0, 1, 255, ..., 255` and the second
`0, 0, 0, 255, ..., 255`. -/
theorem not_idempotent_in_general :
    ∃ gray : List Byte, 1 ≤ gray.length ∧ gray.length ≤ 8421504 ∧
      (∃ x ∈ gray, ∃ y ∈ gray, x ≠ y) ∧
      ∃ once twice, histogram_equalization gray = .ok once ∧
        histogram_equalization once = .ok twice ∧ twice ≠ once :=
  ⟨[0, 1, 2] ++ List.replicate 255 3, by simp, by simp,
    ⟨0, by simp, 1, by simp, by decide⟩,
    [0, 0, 1] ++ List.replicate 255 255, [0, 0, 0] ++ List.replicate 255 255,
    not_idempotent_first, not_idempotent_second, by decide⟩

/-! ## The width of the products of line 33 -/

theorem cdfMinLoop_cases (cdf : Nat → Int) :
    ∀ k i, cdfMinLoop cdf i k = 0 ∨ ∃ j, cdfMinLoop cdf i k = cdf j := by
  intro k
  induction k with
  | zero => intro i; exact Or.inl rfl
  | succ k ih =>
    intro i
    rw [cdfMinLoop]
    by_cases h : cdf i ≠ 0
    · rw [if_pos h]; exact Or.inr ⟨i, rfl⟩
    · rw [if_neg h]; exact ih (i + 1)

theorem cdfOf_bounds (gray : List Byte) (hfit : gray.length ≤ 2147483647) (i : Nat) :
    0 ≤ cdfOf gray i ∧ cdfOf gray i ≤ (gray.length : Int) := by
  rw [cdfOf_eq gray hfit]
  have := List.countP_le_length (fun g : Byte => decide (g.val ≤ i)) (l := gray)
  omega

theorem cdfMinOf_bounds (gray : List Byte) (hfit : gray.length ≤ 2147483647) :
    0 ≤ cdfMinOf gray ∧ cdfMinOf gray ≤ (gray.length : Int) := by
  unfold cdfMinOf
  rcases cdfMinLoop_cases (cdfOf gray) 256 0 with h | ⟨j, h⟩
  · rw [h]; omega
  · rw [h]; exact cdfOf_bounds gray hfit j

/-- C7 (amended). For every buffer of `1 ≤ count ≤ 8421504` samples and every `i` in
0..255, the product `(cdf[i] - cdf_min) * 255` computed in 32-bit `int` arithmetic is the
exact product, where `cdf[i]` is the exact number of samples `≤ i`. -/
theorem product_exact (gray : List Byte) (hpos : 1 ≤ gray.length)
    (hfit : gray.length ≤ 8421504) (i : Nat) (_hi : i < 256) :
    cdfOf gray i = ((gray.countP (fun g => g.val ≤ i) : Nat) : Int) ∧
    wrap32 (wrap32 (cdfOf gray i - cdfMinOf gray) * 255)
      = (cdfOf gray i - cdfMinOf gray) * 255 := by
  refine ⟨cdfOf_eq gray (by omega) i, ?_⟩
  have h1 := cdfOf_bounds gray (by omega) i
  have h2 := cdfMinOf_bounds gray (by omega)
  rw [wrap32_of_fits (cdfOf gray i - cdfMinOf gray) (by omega) (by omega)]
  exact wrap32_of_fits _ (by omega) (by omega)

/-- C7 (amended), at the buffer `[0, 0, 1]` and `i = 1`. -/
theorem product_exact_witness :
    cdfOf [0, 0, 1] 1 = ((([0, 0, 1] : List Byte).countP (fun g => g.val ≤ 1) : Nat) : Int) ∧
    wrap32 (wrap32 (cdfOf [0, 0, 1] 1 - cdfMinOf [0, 0, 1]) * 255)
      = (cdfOf [0, 0, 1] 1 - cdfMinOf [0, 0, 1]) * 255 :=
  product_exact [0, 0, 1] (by simp) (by simp) 1 (by omega)

theorem cdf_two_levels (n : Nat) (hn : n + 1 ≤ 2147483647) :
    cdfOf (0 :: List.replicate n 255) 255 = (n : Int) + 1 ∧
    cdfMinOf (0 :: List.replicate n 255) = 1 := by
  have hlen : ((0 : Byte) :: List.replicate n 255).length = n + 1 := by
    rw [List.length_cons, List.length_replicate]
  constructor
  · rw [cdfOf_eq _ (by omega), List.countP_cons, List.countP_replicate]
    have h1 : (decide (((255 : Byte)).val ≤ 255)) = true := by decide
    have h2 : (decide (((0 : Byte)).val ≤ 255)) = true := by decide
    rw [h1, h2]
    simp
  · rw [cdfMinOf_eq _ 0 (List.mem_cons_self _ _) (fun x _ => Fin.zero_le x) (by omega),
      List.count_cons, List.count_replicate]
    have h1 : ((255 : Byte) == 0) = false := by decide
    rw [h1]
    simp

/-- C7 as stated fails: with one sample 0 and 8421505 samples 255 the count fits in an
`int`, `cdf[255] - cdf_min` is 8421505, and the 32-bit product is -2147483521 instead of
2147483775. -/
theorem product_overflows :
    1 ≤ ((0 : Byte) :: List.replicate 8421505 255).length ∧
    ((0 : Byte) :: List.replicate 8421505 255).length ≤ 2147483647 ∧
    wrap32 (wrap32 (cdfOf (0 :: List.replicate 8421505 255) 255
        - cdfMinOf (0 :: List.replicate 8421505 255)) * 255) = -2147483521 ∧
    (cdfOf (0 :: List.replicate 8421505 255) 255
        - cdfMinOf (0 :: List.replicate 8421505 255)) * 255 = 2147483775 := by
  have h := cdf_two_levels 8421505 (by omega)
  refine ⟨?_, ?_, ?_, ?_⟩
  · rw [List.length_cons, List.length_replicate]; omega
  · rw [List.length_cons, List.length_replicate]; omega
  · rw [h.1, h.2]; decide
  · rw [h.1, h.2]; decide

/-! ## Reading back what `fprintf` wrote -/

theorem scanDigits_printDigits :
    ∀ (fuel n : Nat) (acc rest : List Byte) (a : Nat), n < fuel →
      ∃ e, scanDigits (printDigits fuel n acc ++ rest) a
        = scanDigits (acc ++ rest) (a * 10 ^ e + n) := by
  intro fuel
  induction fuel with
  | zero => intro n acc rest a h; omega
  | succ fuel ih =>
    intro n acc rest a h
    rw [printDigits]
    have hdig : isDigit (⟨48 + n % 10, by omega⟩ : Byte) = true := by
      simp only [isDigit, Bool.and_eq_true, decide_eq_true_eq]
      omega
    by_cases hn : n < 10
    · rw [if_pos hn]
      refine ⟨1, ?_⟩
      rw [List.cons_append, scanDigits, if_pos hdig]
      congr 1
      simp only [pow_one]
      omega
    · rw [if_neg hn]
      rcases ih (n / 10) (⟨48 + n % 10, by omega⟩ :: acc) rest a (by omega) with ⟨e, he⟩
      refine ⟨e + 1, ?_⟩
      rw [he, List.cons_append, scanDigits, if_pos hdig]
      congr 1
      simp only [pow_succ]
      have : a * (10 ^ e * 10) = a * 10 ^ e * 10 := by ring
      omega

theorem printDigits_head :
    ∀ (fuel n : Nat) (acc : List Byte), n < fuel →
      ∃ c cs, printDigits fuel n acc = c :: cs ∧ isDigit c = true := by
  intro fuel
  induction fuel with
  | zero => intro n acc h; omega
  | succ fuel ih =>
    intro n acc h
    rw [printDigits]
    by_cases hn : n < 10
    · rw [if_pos hn]
      refine ⟨_, _, rfl, ?_⟩
      simp only [isDigit, Bool.and_eq_true, decide_eq_true_eq]
      omega
    · rw [if_neg hn]
      exact ih (n / 10) _ (by omega)

theorem scanDigits_stop (c : Byte) (rest : List Byte) (a : Nat) (hc : isDigit c = false) :
    scanDigits (c :: rest) a = (a, c :: rest) := by
  rw [scanDigits, hc]
  rfl

theorem not_space_of_digit (c : Byte) (hc : isDigit c = true) :
    isSpace c = false ∧ c ≠ 45 ∧ c ≠ 43 := by
  simp only [isDigit, Bool.and_eq_true, decide_eq_true_eq] at hc
  refine ⟨?_, ?_, ?_⟩
  · simp only [isSpace, Bool.or_eq_false_iff, decide_eq_false_iff_not, Bool.and_eq_false_iff]
    omega
  · intro h; rw [h] at hc; revert hc; decide
  · intro h; rw [h] at hc; revert hc; decide

/-- A number that `fprintf` wrote with `%d`, after one white-space byte and followed by a
byte that is not a digit, is read back by `%d` of `fscanf`. -/
theorem scanInt_printInt (v : Int) (h0 : 0 ≤ v) (h1 : v ≤ 2147483647) (sp c : Byte)
    (rest : List Byte) (hsp : isSpace sp = true) (hc : isDigit c = false) :
    scanInt (sp :: (printInt v ++ c :: rest)) = .ok (some v, c :: rest) := by
  have hv : ((v.natAbs : Nat) : Int) = v := Int.natAbs_of_nonneg h0
  have hp : printInt v = printDigits (v.natAbs + 1) v.natAbs [] := by
    unfold printInt
    rw [if_neg (by omega)]
  rcases printDigits_head (v.natAbs + 1) v.natAbs [] (by omega) with ⟨d, ds, hd, hdig⟩
  rcases scanDigits_printDigits (v.natAbs + 1) v.natAbs [] (c :: rest) 0 (by omega)
    with ⟨e, he⟩
  rcases not_space_of_digit d hdig with ⟨hs, h45, h43⟩
  have hscan : scanDigits (d :: (ds ++ c :: rest)) 0 = (v.natAbs, c :: rest) := by
    rw [← List.cons_append, ← hd, he, List.nil_append, scanDigits_stop c rest _ hc]
    simp
  have hdrop : List.dropWhile isSpace (sp :: (printInt v ++ c :: rest))
      = d :: (ds ++ c :: rest) := by
    rw [List.dropWhile_cons, if_pos hsp, hp, hd, List.cons_append, List.dropWhile_cons, hs]
    simp
  unfold scanInt
  simp only [hdrop, h45, h43, if_false, hdig, if_true, hscan, Bool.false_eq_true]
  rw [hv, if_pos ⟨by omega, h1⟩]

theorem write_eq (w h : Int) (px : List Byte) :
    write w h px
      = 80 :: 53 :: 10 :: (printInt w ++ 32 :: (printInt h ++ 10 :: (printInt 255 ++ 10 :: px))) := by
  simp [write, List.append_assoc]

theorem scanStr2_magic (rest : List Byte) :
    scanStr2 (80 :: 53 :: 10 :: rest) = ([80, 53], 10 :: rest) := by
  rfl

/-- Lines 51-73 on a stream that lines 83-84 wrote, with `totalPixels` computed in `int`. -/
theorem load_write (w h : Int) (px : List Byte) (hw : 1 ≤ w) (hw2 : w ≤ 2147483647)
    (hh : 1 ≤ h) (hh2 : h ≤ 2147483647) (ht : 0 ≤ wrap32 (w * h)) :
    load (write w h px)
      = .ok (.image ⟨w, h, some 255, wrap32 (w * h), px.take (wrap32 (w * h)).toNat⟩) := by
  have hsp10 : isSpace 10 = true := by decide
  have hsp32 : isSpace 32 = true := by decide
  have hd10 : isDigit 10 = false := by decide
  have hd32 : isDigit 32 = false := by decide
  have e1 := scanInt_printInt w (by omega) hw2 10 32
    (printInt h ++ 10 :: (printInt 255 ++ 10 :: px)) hsp10 hd32
  have e2 := scanInt_printInt h (by omega) hh2 32 10 (printInt 255 ++ 10 :: px) hsp32 hd10
  have e3 := scanInt_printInt 255 (by omega) (by omega) 10 10 px hsp10 hd10
  have hskip : ∀ rest : List Byte, skipComments false (10 :: rest) = .ok (10 :: rest) := by
    intro rest
    rfl
  rw [write_eq]
  unfold load
  simp only [scanStr2_magic, hskip, e1, e2, e3]
  simp [not_lt.mpr ht, e3]

/-- C8 (amended). For `width ≥ 1`, `height ≥ 1` with `width * height ≤ 2147483647` and
every pixel sequence of `width * height` bytes, the stream lines 83-84 write is parsed by
lines 51-73 to the same width, height and pixel bytes (and `maxval` 255). -/
theorem load_write_roundtrip (width height : Int) (pixels : List Byte) (hw : 1 ≤ width)
    (hh : 1 ≤ height) (hlen : (pixels.length : Int) = width * height)
    (hfit : width * height ≤ 2147483647) :
    load (write width height pixels)
      = .ok (.image ⟨width, height, some 255, width * height, pixels⟩) := by
  have hw2 : width ≤ 2147483647 := by nlinarith
  have hh2 : height ≤ 2147483647 := by nlinarith
  have hpos : 0 ≤ width * height := by nlinarith
  have hwrap : wrap32 (width * height) = width * height :=
    wrap32_of_fits _ (by omega) hfit
  rw [load_write width height pixels hw hw2 hh hh2 (by rw [hwrap]; exact hpos), hwrap,
    ← hlen]
  simp

/-- C8 (amended), at a 2 x 1 image. -/
theorem load_write_roundtrip_witness :
    load (write 2 1 [7, 9]) = .ok (.image ⟨2, 1, some 255, 2 * 1, [7, 9]⟩) :=
  load_write_roundtrip 2 1 [7, 9] (by decide) (by decide) (by decide) (by decide)

/-- C8 as stated fails when `width * height` does not fit in an `int`: for a
65536 x 65536 image line 71 computes `totalPixels = 0` and no pixel is read back. -/
theorem load_write_large_image :
    ((List.replicate 4294967296 (0 : Byte)).length : Int) = 65536 * 65536 ∧
    load (write 65536 65536 (List.replicate 4294967296 0))
      = .ok (.image ⟨65536, 65536, some 255, 0, []⟩) ∧
    ([] : List Byte) ≠ List.replicate 4294967296 0 := by
  refine ⟨?_, ?_, ?_⟩
  · rw [List.length_replicate]; decide
  · rw [load_write 65536 65536 _ (by decide) (by decide) (by decide) (by decide) (by decide)]
    have h : wrap32 (65536 * 65536) = 0 := by decide
    rw [h]
    rfl
  · intro h
    have h2 := congrArg List.length h
    rw [List.length_replicate] at h2
    exact absurd h2 (by decide)

/-! ## The test of the magic number -/

theorem scanStr2_length (s : List Byte) : (scanStr2 s).1.length ≤ 2 := by
  unfold scanStr2
  exact List.length_take_le _ _

/-- C9 (amended). Whenever `%2s` stores at least one byte and the bytes stored are not
"P5", `main` prints the unsupported-format message and returns 1: the equalizer has not
run (line 76 has not printed) and the output file has not been opened. -/
theorem unsupported_format (s : List Byte) (outOpens : Bool)
    (hread : (scanStr2 s).1 ≠ []) (hmagic : (scanStr2 s).1 ≠ [80, 53]) :
    main (some s) outOpens = .ok ⟨1, [.unsupported (scanStr2 s).1], none⟩ := by
  have hlen := scanStr2_length s
  have hload : load s = .ok (.unsupported (scanStr2 s).1) := by
    unfold load
    rcases htok : (scanStr2 s).1 with _ | ⟨f0, _ | ⟨f1, _ | ⟨f2, fs⟩⟩⟩
    · exact absurd htok hread
    · have h : ((([] : List Byte) ++ [0]).headD 0) ≠ 53 := by decide
      simp only [htok, h, ne_eq, not_false_eq_true, or_true, if_true]
    · have h : f0 ≠ 80 ∨ (([f1] ++ [0]).headD 0) ≠ 53 := by
        by_cases h0 : f0 = 80
        · right
          intro h1
          apply hmagic
          have h2 : f1 = 53 := h1
          rw [htok, h0, h2]
        · left; exact h0
      simp only [htok, if_pos h]
    · rw [htok] at hlen
      simp at hlen
  unfold main
  simp only [hload]

/-- C9 (amended), at a stream that starts with "P2". -/
theorem unsupported_format_witness :
    main (some [80, 50, 10, 50, 32, 49, 10, 50, 53, 53, 10, 0, 1]) true
      = .ok ⟨1, [.unsupported (scanStr2 [80, 50, 10, 50, 32, 49, 10, 50, 53, 53, 10, 0, 1]).1],
          none⟩ :=
  unsupported_format [80, 50, 10, 50, 32, 49, 10, 50, 53, 53, 10, 0, 1] true
    (by decide) (by decide)

/-- C9 as stated fails: the stream " P5\n2 1\n255\n" followed by the pixels 0 and 1 does
not start with "P5", yet `%2s` skips the blank, the image is equalized and written, and
`main` returns 0. -/
theorem leading_blank_accepted :
    List.take 2 ([32, 80, 53, 10, 50, 32, 49, 10, 50, 53, 53, 10, 0, 1] : List Byte)
      ≠ [80, 53] ∧
    main (some [32, 80, 53, 10, 50, 32, 49, 10, 50, 53, 53, 10, 0, 1]) true
      = .ok ⟨0, [.inputImage 2 1, .done],
          some [80, 53, 10, 50, 32, 49, 10, 50, 53, 53, 10, 0, 255]⟩ := by
  decide

/-! ## Comment lines -/

/-- C10. A comment line on its own line after "P5\n" is not skipped: line 63 reads the
newline that follows the magic number, so the loop of lines 63-64 never sees the `#`, the
conversions of line 67 fail on it, and `width` and `height` are read unassigned. -/
theorem comment_line_not_skipped (rest : List Byte) :
    load (80 :: 53 :: 10 :: 35 :: rest) = .error .uninit := by
  rfl

/-- The stream "P5\n2 1\n255\n" with the pixels 0 and 1, and the same stream with the
line "# c\n" after the magic line. -/
theorem comment_line_example :
    load [80, 53, 10, 50, 32, 49, 10, 50, 53, 53, 10, 0, 1]
      = .ok (.image ⟨2, 1, some 255, 2, [0, 1]⟩) ∧
    load [80, 53, 10, 35, 32, 99, 10, 50, 32, 49, 10, 50, 53, 53, 10, 0, 1]
      = .error .uninit := by
  decide

/-- A comment that follows the magic number with no byte in between is skipped. -/
theorem comment_after_magic_skipped :
    load [80, 53, 35, 32, 99, 10, 50, 32, 49, 10, 50, 53, 53, 10, 0, 1]
      = .ok (.image ⟨2, 1, some 255, 2, [0, 1]⟩) := by
  decide

/-! ## The tables after steps 1, 2 and 3 -/

theorem countP_val_eq_count (gray : List Byte) (v : Byte) :
    gray.countP (fun g => g.val = v.val) = gray.count v := by
  rw [List.count]
  apply List.countP_congr
  intro x _
  simp only [decide_eq_true_eq, beq_iff_eq]
  exact Fin.val_inj

theorem countP_le_all (gray : List Byte) : gray.countP (fun g => g.val ≤ 255) = gray.length := by
  rw [List.countP_eq_length]
  intro x _
  have := x.isLt
  simp only [decide_eq_true_eq]
  omega

theorem sum_histOf (gray : List Byte) (hfit : gray.length ≤ 2147483647) (i : Nat) :
    ∑ j in Finset.range (i + 1), histOf gray j = cdfOf gray i := by
  induction i with
  | zero => simp [cdfOf, cdfLoop]
  | succ i ih =>
    rw [Finset.sum_range_succ, ih, cdfOf_eq gray hfit, cdfOf_eq gray hfit, histOf_eq gray hfit,
      countP_le_succ]
    push_cast
    ring

/-- C11. After step 1, for every buffer whose count is an `int`, `hist[v]` is the number of
occurrences of `v` in the buffer for each of the 256 intensities, and the 256 entries of
`hist` sum to the count. -/
theorem histogram_counts (gray : List Byte) (hfit : gray.length ≤ 2147483647) :
    (∀ v : Byte, histOf gray v.val = (gray.count v : Int)) ∧
    ∑ v in Finset.range 256, histOf gray v = (gray.length : Int) := by
  constructor
  · intro v
    rw [histOf_eq gray hfit, countP_val_eq_count]
  · rw [sum_histOf gray hfit 255, cdfOf_eq gray hfit, countP_le_all]

/-- C11, at the buffer `[0,0,1,1,2,2,3,3]`. -/
theorem histogram_counts_witness :
    (∀ v : Byte, histOf [0, 0, 1, 1, 2, 2, 3, 3] v.val
        = (([0, 0, 1, 1, 2, 2, 3, 3] : List Byte).count v : Int)) ∧
    ∑ v in Finset.range 256, histOf [0, 0, 1, 1, 2, 2, 3, 3] v
      = (([0, 0, 1, 1, 2, 2, 3, 3] : List Byte).length : Int) :=
  histogram_counts [0, 0, 1, 1, 2, 2, 3, 3] (by simp)

/-- C12. After step 2, for every buffer whose count is an `int`, `cdf[i]` is the number of
samples `≤ i` for each `i` in 0..255, so `cdf` is non-decreasing and `cdf[255]` is the
count. -/
theorem cdf_counts (gray : List Byte) (hfit : gray.length ≤ 2147483647) :
    (∀ i, i < 256 → cdfOf gray i = ((gray.countP (fun g => g.val ≤ i) : Nat) : Int)) ∧
    (∀ i j, i ≤ j → j < 256 → cdfOf gray i ≤ cdfOf gray j) ∧
    cdfOf gray 255 = (gray.length : Int) := by
  refine ⟨fun i _ => cdfOf_eq gray hfit i, ?_, ?_⟩
  · intro i j hij _
    rw [cdfOf_eq gray hfit, cdfOf_eq gray hfit]
    have : gray.countP (fun g => g.val ≤ i) ≤ gray.countP (fun g => g.val ≤ j) := by
      apply List.countP_mono_left
      intro x _ hx
      simp only [decide_eq_true_eq] at hx ⊢
      omega
    exact_mod_cast this
  · rw [cdfOf_eq gray hfit, countP_le_all]

/-- C12, at the buffer `[0,0,1,1,2,2,3,3]`. -/
theorem cdf_counts_witness :
    (∀ i, i < 256 → cdfOf [0, 0, 1, 1, 2, 2, 3, 3] i
        = ((([0, 0, 1, 1, 2, 2, 3, 3] : List Byte).countP (fun g => g.val ≤ i) : Nat) : Int)) ∧
    (∀ i j, i ≤ j → j < 256 →
      cdfOf [0, 0, 1, 1, 2, 2, 3, 3] i ≤ cdfOf [0, 0, 1, 1, 2, 2, 3, 3] j) ∧
    cdfOf [0, 0, 1, 1, 2, 2, 3, 3] 255 = (([0, 0, 1, 1, 2, 2, 3, 3] : List Byte).length : Int) :=
  cdf_counts [0, 0, 1, 1, 2, 2, 3, 3] (by simp)

/-- C13. For every buffer of `count ≥ 1` samples (`lo` being the smallest intensity
present), the `cdf_min` of step 3 is the number of samples equal to `lo`, lies between 1 and
the count, is an entry of `cdf` and is at most every non-zero entry of `cdf`; when all
samples are equal it is the count. -/
theorem cdf_min_spec (gray : List Byte) (lo : Byte) (hlo : lo ∈ gray)
    (hmin : ∀ x ∈ gray, lo ≤ x) (hfit : gray.length ≤ 2147483647) :
    cdfMinOf gray = (gray.count lo : Int) ∧
    1 ≤ cdfMinOf gray ∧ cdfMinOf gray ≤ (gray.length : Int) ∧
    (∃ i, i < 256 ∧ cdfOf gray i = cdfMinOf gray) ∧
    (∀ i, i < 256 → cdfOf gray i ≠ 0 → cdfMinOf gray ≤ cdfOf gray i) ∧
    ((∀ x ∈ gray, x = lo) → cdfMinOf gray = (gray.length : Int)) := by
  have hm := cdfMinOf_eq gray lo hlo hmin hfit
  have hpos := count_min_pos gray lo hlo
  have hle := List.count_le_length lo gray
  have hat : cdfOf gray lo.val = (gray.count lo : Int) := by
    rw [cdfOf_eq gray hfit, countP_at_min gray lo hmin]
  refine ⟨hm, by omega, by omega, ⟨lo.val, lo.isLt, by rw [hat, hm]⟩, ?_, ?_⟩
  · intro i _ hne
    rw [hm]
    rcases Nat.lt_or_ge i lo.val with h | h
    · exfalso
      apply hne
      rw [cdfOf_eq gray hfit, countP_below_min gray lo hmin i h]
      rfl
    · rw [← hat, cdfOf_eq gray hfit, cdfOf_eq gray hfit]
      have : gray.countP (fun g => g.val ≤ lo.val) ≤ gray.countP (fun g => g.val ≤ i) := by
        apply List.countP_mono_left
        intro x _ hx
        simp only [decide_eq_true_eq] at hx ⊢
        omega
      exact_mod_cast this
  · intro hall
    rw [hm, List.count_eq_length.mpr (fun x hx => (hall x hx).symm)]

/-- C13, at the buffer `[3, 9, 3, 200]`, where `cdf_min` is 2. -/
theorem cdf_min_spec_witness :
    cdfMinOf [3, 9, 3, 200] = ((([3, 9, 3, 200] : List Byte).count 3 : Nat) : Int) ∧
    1 ≤ cdfMinOf [3, 9, 3, 200] ∧
    cdfMinOf [3, 9, 3, 200] ≤ (([3, 9, 3, 200] : List Byte).length : Int) ∧
    (∃ i, i < 256 ∧ cdfOf [3, 9, 3, 200] i = cdfMinOf [3, 9, 3, 200]) ∧
    (∀ i, i < 256 → cdfOf [3, 9, 3, 200] i ≠ 0 →
      cdfMinOf [3, 9, 3, 200] ≤ cdfOf [3, 9, 3, 200] i) ∧
    ((∀ x ∈ ([3, 9, 3, 200] : List Byte), x = 3) →
      cdfMinOf [3, 9, 3, 200] = (([3, 9, 3, 200] : List Byte).length : Int)) :=
  cdf_min_spec [3, 9, 3, 200] 3 (by simp) (by decide) (by simp)

/-- C14. For every buffer of `count ≥ 1` samples, the divisor `totalPixels - cdf_min` of
line 33 is zero exactly when all samples hold the same intensity; with two distinct
intensities present it is at least 1. -/
theorem divisor_zero_iff (gray : List Byte) (hpos : gray ≠ [])
    (hfit : gray.length ≤ 2147483647) :
    (wrap32 ((gray.length : Int) - cdfMinOf gray) = 0 ↔ ∀ x ∈ gray, ∀ y ∈ gray, x = y) ∧
    ((∃ x ∈ gray, ∃ y ∈ gray, x ≠ y) → 1 ≤ wrap32 ((gray.length : Int) - cdfMinOf gray)) := by
  rcases exists_darkest gray hpos with ⟨lo, hlo, hmin⟩
  have hm := cdfMinOf_eq gray lo hlo hmin hfit
  have hle := List.count_le_length lo gray
  have hw : wrap32 ((gray.length : Int) - cdfMinOf gray)
      = (gray.length : Int) - (gray.count lo : Int) := by
    rw [hm, wrap32_of_fits _ (by omega) (by omega)]
  rw [hw]
  constructor
  · constructor
    · intro h x hx y hy
      have hc : gray.count lo = gray.length := by omega
      rw [List.count_eq_length] at hc
      rw [← hc x hx, ← hc y hy]
    · intro h
      have hc : gray.count lo = gray.length :=
        List.count_eq_length.mpr (fun x hx => h lo hlo x hx)
      omega
  · intro h2
    have := count_lt_length gray lo (exists_other gray lo h2)
    omega

/-- C14, at the buffer `[3, 9, 3, 200]`, where the divisor is 2. -/
theorem divisor_zero_iff_witness :
    (wrap32 ((([3, 9, 3, 200] : List Byte).length : Int) - cdfMinOf [3, 9, 3, 200]) = 0
      ↔ ∀ x ∈ ([3, 9, 3, 200] : List Byte), ∀ y ∈ ([3, 9, 3, 200] : List Byte), x = y) ∧
    ((∃ x ∈ ([3, 9, 3, 200] : List Byte), ∃ y ∈ ([3, 9, 3, 200] : List Byte), x ≠ y) →
      1 ≤ wrap32 ((([3, 9, 3, 200] : List Byte).length : Int) - cdfMinOf [3, 9, 3, 200])) :=
  divisor_zero_iff [3, 9, 3, 200] (by simp) (by simp)

/-! ## The entries of `map` before the narrowing of line 33 -/

theorem mapOf_eq (gray : List Byte)
    (hd : 1 ≤ wrap32 ((gray.length : Int) - cdfMinOf gray)) :
    mapOf gray = .ok ((List.range 256).map
      (mapEntry (cdfOf gray) (cdfMinOf gray) (gray.length : Int))) :=
  mapLoop_ok _ _ _ hd 256

/-- C15 (amended). For every buffer of at most 8421504 samples with at least two distinct
intensities (`lo` being the smallest one present) and every intensity `i` in 0..255 with
`lo ≤ i`, the quotient that line 33 computes is the exact
`((cdf[i] - cdf_min) * 255) / (count - cdf_min)`, lies in [0,255], and is the value of
`map[i]`. -/
theorem map_entry_in_range (gray : List Byte) (lo : Byte) (hlo : lo ∈ gray)
    (hmin : ∀ x ∈ gray, lo ≤ x) (hne : ∃ x ∈ gray, x ≠ lo) (hfit : gray.length ≤ 8421504)
    (i : Nat) (hi : i < 256) (hlow : lo.val ≤ i) :
    Int.tdiv (wrap32 (wrap32 (cdfOf gray i - cdfMinOf gray) * 255))
        (wrap32 ((gray.length : Int) - cdfMinOf gray))
      = ((cdfOf gray i - cdfMinOf gray) * 255) / ((gray.length : Int) - cdfMinOf gray) ∧
    0 ≤ ((cdfOf gray i - cdfMinOf gray) * 255) / ((gray.length : Int) - cdfMinOf gray) ∧
    ((cdfOf gray i - cdfMinOf gray) * 255) / ((gray.length : Int) - cdfMinOf gray) ≤ 255 ∧
    ∃ map, mapOf gray = .ok map ∧
      (((map.getD i 0).val : Nat) : Int)
        = ((cdfOf gray i - cdfMinOf gray) * 255) / ((gray.length : Int) - cdfMinOf gray) := by
  have hm := cdfMinOf_eq gray lo hlo hmin (by omega)
  have hc := cdfOf_eq gray (by omega) i
  have hlt := count_lt_length gray lo hne
  have hpos := count_min_pos gray lo hlo
  have hup := List.countP_le_length (fun g : Byte => decide (g.val ≤ i)) (l := gray)
  have hdown : gray.count lo ≤ gray.countP (fun g => g.val ≤ i) := by
    rw [← countP_at_min gray lo hmin]
    apply List.countP_mono_left
    intro x _ hx
    simp only [decide_eq_true_eq] at hx ⊢
    omega
  have hd : wrap32 ((gray.length : Int) - cdfMinOf gray)
      = (gray.length : Int) - cdfMinOf gray := wrap32_of_fits _ (by omega) (by omega)
  have hn : wrap32 (cdfOf gray i - cdfMinOf gray) = cdfOf gray i - cdfMinOf gray :=
    wrap32_of_fits _ (by omega) (by omega)
  have hp : wrap32 ((cdfOf gray i - cdfMinOf gray) * 255)
      = (cdfOf gray i - cdfMinOf gray) * 255 := wrap32_of_fits _ (by omega) (by omega)
  have hq : Int.tdiv (wrap32 (wrap32 (cdfOf gray i - cdfMinOf gray) * 255))
        (wrap32 ((gray.length : Int) - cdfMinOf gray))
      = ((cdfOf gray i - cdfMinOf gray) * 255) / ((gray.length : Int) - cdfMinOf gray) := by
    rw [hd, hn, hp, Int.tdiv_eq_ediv (by omega) (by omega)]
  have h0 : 0 ≤ ((cdfOf gray i - cdfMinOf gray) * 255) / ((gray.length : Int) - cdfMinOf gray) :=
    Int.ediv_nonneg (by omega) (by omega)
  have h255 : ((cdfOf gray i - cdfMinOf gray) * 255) / ((gray.length : Int) - cdfMinOf gray)
      ≤ 255 := Int.ediv_le_of_le_mul (by omega) (by omega)
  refine ⟨hq, h0, h255, _, mapOf_eq gray (by rw [hd]; omega), ?_⟩
  rw [getD_map_range _ _ _ hi]
  unfold mapEntry
  rw [hq]
  exact toUChar_of_fits _ h0 h255

/-- C15 (amended), at the buffer `[3, 9, 3, 200]` and the intensity 9. -/
theorem map_entry_in_range_witness :
    Int.tdiv (wrap32 (wrap32 (cdfOf [3, 9, 3, 200] 9 - cdfMinOf [3, 9, 3, 200]) * 255))
        (wrap32 ((([3, 9, 3, 200] : List Byte).length : Int) - cdfMinOf [3, 9, 3, 200]))
      = ((cdfOf [3, 9, 3, 200] 9 - cdfMinOf [3, 9, 3, 200]) * 255)
          / ((([3, 9, 3, 200] : List Byte).length : Int) - cdfMinOf [3, 9, 3, 200]) ∧
    0 ≤ ((cdfOf [3, 9, 3, 200] 9 - cdfMinOf [3, 9, 3, 200]) * 255)
          / ((([3, 9, 3, 200] : List Byte).length : Int) - cdfMinOf [3, 9, 3, 200]) ∧
    ((cdfOf [3, 9, 3, 200] 9 - cdfMinOf [3, 9, 3, 200]) * 255)
          / ((([3, 9, 3, 200] : List Byte).length : Int) - cdfMinOf [3, 9, 3, 200]) ≤ 255 ∧
    ∃ map, mapOf [3, 9, 3, 200] = .ok map ∧
      (((map.getD 9 0).val : Nat) : Int)
        = ((cdfOf [3, 9, 3, 200] 9 - cdfMinOf [3, 9, 3, 200]) * 255)
          / ((([3, 9, 3, 200] : List Byte).length : Int) - cdfMinOf [3, 9, 3, 200]) :=
  map_entry_in_range [3, 9, 3, 200] 3 (by simp) (by decide) ⟨9, by simp, by decide⟩ (by simp)
    9 (by omega) (by decide)

/-- C15 as stated fails below the smallest intensity present: for the buffer `[1, 2]` and
`i = 0` the quotient is `((0 - 1) * 255) / (2 - 1) = -255`, which line 33 narrows to 1.
It also fails when the product overflows: for one sample 0 and 8421505 samples 255 the
quotient computed for `i = 255` is -254. -/
theorem map_entry_out_of_range :
    Int.tdiv (wrap32 (wrap32 (cdfOf [1, 2] 0 - cdfMinOf [1, 2]) * 255))
        (wrap32 ((([1, 2] : List Byte).length : Int) - cdfMinOf [1, 2])) = -255 ∧
    ((cdfOf [1, 2] 0 - cdfMinOf [1, 2]) * 255)
        / ((([1, 2] : List Byte).length : Int) - cdfMinOf [1, 2]) = -255 ∧
    mapEntry (cdfOf [1, 2]) (cdfMinOf [1, 2]) (([1, 2] : List Byte).length : Int) 0 = 1 ∧
    Int.tdiv (wrap32 (wrap32 (cdfOf (0 :: List.replicate 8421505 255) 255
          - cdfMinOf (0 :: List.replicate 8421505 255)) * 255))
        (wrap32 ((((0 : Byte) :: List.replicate 8421505 255).length : Int)
          - cdfMinOf (0 :: List.replicate 8421505 255))) = -254 := by
  have h := cdf_two_levels 8421505 (by omega)
  refine ⟨by decide, by decide, by decide, ?_⟩
  rw [h.1, h.2, List.length_cons, List.length_replicate]
  decide

/-! ## Order, full range and reordering -/

theorem equalized_mono (gray : List Byte) (lo : Byte) (hmin : ∀ x ∈ gray, lo ≤ x)
    (hne : ∃ x ∈ gray, x ≠ lo) (hfit : gray.length ≤ 8421504) (u v : Byte) (hu : u ∈ gray)
    (hv : v ∈ gray) (huv : u ≤ v) : equalized gray lo u ≤ equalized gray lo v := by
  have hU := mapped_sample gray lo hmin hne hfit u hu
  have hV := mapped_sample gray lo hmin hne hfit v hv
  have hlt := count_lt_length gray lo hne
  have hcount : gray.countP (fun x => x ≤ u) ≤ gray.countP (fun x => x ≤ v) := by
    apply List.countP_mono_left
    intro x _ hx
    simp only [decide_eq_true_eq] at hx ⊢
    exact le_trans hx huv
  have hq : (((gray.countP (fun x => x ≤ u) : Nat) : Int) - (gray.count lo : Int)) * 255
        / ((gray.length : Int) - (gray.count lo : Int))
      ≤ (((gray.countP (fun x => x ≤ v) : Nat) : Int) - (gray.count lo : Int)) * 255
        / ((gray.length : Int) - (gray.count lo : Int)) :=
    Int.ediv_le_ediv (by omega) (by omega)
  show (equalized gray lo u).val ≤ (equalized gray lo v).val
  unfold equalized
  omega

/-- C16. For every buffer of at most 8421504 samples with at least two distinct
intensities, the call preserves the order of the samples: `in[p] ≤ in[q]` gives
`out[p] ≤ out[q]`, and equal inputs give equal outputs. -/
theorem order_preserved (gray : List Byte) (h2 : ∃ x ∈ gray, ∃ y ∈ gray, x ≠ y)
    (hfit : gray.length ≤ 8421504) :
    ∃ out, histogram_equalization gray = .ok out ∧
      (∀ (p q : Nat) (hp : p < gray.length) (hq : q < gray.length) (hp2 : p < out.length)
        (hq2 : q < out.length), gray[p] ≤ gray[q] → out[p] ≤ out[q]) ∧
      (∀ (p q : Nat) (hp : p < gray.length) (hq : q < gray.length) (hp2 : p < out.length)
        (hq2 : q < out.length), gray[p] = gray[q] → out[p] = out[q]) := by
  have hpos : gray ≠ [] := by
    rcases h2 with ⟨x, hx, _⟩
    exact List.ne_nil_of_mem hx
  rcases exists_darkest gray hpos with ⟨lo, hlo, hmin⟩
  have hne := exists_other gray lo h2
  refine ⟨_, histogram_equalization_eq_map gray lo hlo hmin hne (by omega), ?_, ?_⟩
  · intro p q hp hq hp2 hq2 hle
    rw [List.getElem_map, List.getElem_map]
    exact equalized_mono gray lo hmin hne hfit _ _ (List.getElem_mem _) (List.getElem_mem _) hle
  · intro p q hp hq hp2 hq2 heq
    rw [List.getElem_map, List.getElem_map, heq]

/-- C16, at the buffer `[3, 9, 3, 200]`. -/
theorem order_preserved_witness :
    ∃ out, histogram_equalization [3, 9, 3, 200] = .ok out ∧
      (∀ (p q : Nat) (hp : p < ([3, 9, 3, 200] : List Byte).length)
        (hq : q < ([3, 9, 3, 200] : List Byte).length) (hp2 : p < out.length)
        (hq2 : q < out.length),
        ([3, 9, 3, 200] : List Byte)[p] ≤ ([3, 9, 3, 200] : List Byte)[q] → out[p] ≤ out[q]) ∧
      (∀ (p q : Nat) (hp : p < ([3, 9, 3, 200] : List Byte).length)
        (hq : q < ([3, 9, 3, 200] : List Byte).length) (hp2 : p < out.length)
        (hq2 : q < out.length),
        ([3, 9, 3, 200] : List Byte)[p] = ([3, 9, 3, 200] : List Byte)[q] → out[p] = out[q]) :=
  order_preserved [3, 9, 3, 200] ⟨3, by simp, 9, by simp, by decide⟩ (by simp)

theorem countP_at_max (gray : List Byte) (hi : Byte) (hmax : ∀ x ∈ gray, x ≤ hi) :
    gray.countP (fun x => x ≤ hi) = gray.length := by
  rw [List.countP_eq_length]
  intro x hx
  simp only [decide_eq_true_eq]
  exact hmax x hx

/-- C17. For every buffer of at most 8421504 samples with at least two distinct
intensities, every sample that held the largest intensity present becomes 255, so 255
occurs in the output and is its maximum. -/
theorem brightest_maps_to_255 (gray : List Byte) (hi : Byte) (hhi : hi ∈ gray)
    (hmax : ∀ x ∈ gray, x ≤ hi) (h2 : ∃ x ∈ gray, ∃ y ∈ gray, x ≠ y)
    (hfit : gray.length ≤ 8421504) :
    ∃ out, histogram_equalization gray = .ok out ∧
      (∀ (p : Nat) (hp : p < gray.length) (hq : p < out.length),
        gray[p] = hi → out[p] = 255) ∧
      (255 : Byte) ∈ out ∧ (∀ y ∈ out, y ≤ (255 : Byte)) := by
  rcases exists_darkest gray (List.ne_nil_of_mem hhi) with ⟨lo, hlo, hmin⟩
  have hne := exists_other gray lo h2
  have hlt := count_lt_length gray lo hne
  have htop : equalized gray lo hi = 255 := by
    apply Fin.ext
    have h := mapped_sample gray lo hmin hne hfit hi hhi
    rw [countP_at_max gray hi hmax,
      Int.mul_ediv_cancel_left 255 (by omega : (gray.length : Int) - (gray.count lo : Int) ≠ 0)]
      at h
    have h3 : ((255 : Byte).val : Int) = 255 := rfl
    have h4 : (((equalized gray lo hi).val : Nat) : Int) = ((255 : Byte).val : Int) := by
      rw [h3]; exact h
    exact_mod_cast h4
  refine ⟨_, histogram_equalization_eq_map gray lo hlo hmin hne (by omega), ?_, ?_, ?_⟩
  · intro p hp hq hpl
    rw [List.getElem_map, hpl]
    exact htop
  · rw [List.mem_map]
    exact ⟨hi, hhi, htop⟩
  · intro y _
    have h1 := y.isLt
    have h3 : (255 : Byte).val = 255 := rfl
    show y.val ≤ (255 : Byte).val
    omega

/-- C17, at the buffer `[3, 9, 3, 200]`: the sample 200 becomes 255. -/
theorem brightest_maps_to_255_witness :
    ∃ out, histogram_equalization [3, 9, 3, 200] = .ok out ∧
      (∀ (p : Nat) (hp : p < ([3, 9, 3, 200] : List Byte).length) (hq : p < out.length),
        ([3, 9, 3, 200] : List Byte)[p] = 200 → out[p] = 255) ∧
      (255 : Byte) ∈ out ∧ (∀ y ∈ out, y ≤ (255 : Byte)) :=
  brightest_maps_to_255 [3, 9, 3, 200] 200 (by simp) (by decide)
    ⟨3, by simp, 9, by simp, by decide⟩ (by simp)

theorem equalized_perm (gray gray2 : List Byte) (hperm : gray2.Perm gray) (lo v : Byte) :
    equalized gray2 lo v = equalized gray lo v := by
  unfold equalized
  rw [hperm.countP_eq, hperm.count_eq, hperm.length_eq]

/-- The buffer after the call depends on the multiset of the samples only: a reordered
buffer is mapped through the same table. -/
theorem histogram_equalization_perm (gray gray2 : List Byte) (hperm : gray2.Perm gray)
    (lo : Byte) (hlo : lo ∈ gray) (hmin : ∀ x ∈ gray, lo ≤ x) (hne : ∃ x ∈ gray, x ≠ lo)
    (hfit : gray.length ≤ 2147483647) :
    histogram_equalization gray2 = .ok (gray2.map (equalized gray lo)) := by
  rw [histogram_equalization_eq_map gray2 lo (hperm.mem_iff.mpr hlo)
    (fun x hx => hmin x (hperm.mem_iff.mp hx))
    (by rcases hne with ⟨x, hx, hxl⟩; exact ⟨x, hperm.mem_iff.mpr hx, hxl⟩)
    (by rw [hperm.length_eq]; exact hfit)]
  congr 1
  apply List.map_congr_left
  intro v _
  exact equalized_perm gray gray2 hperm lo v

/-- C18. For every buffer of at most 8421504 samples with at least two distinct intensities
and every permutation `s` of its positions, equalizing the buffer reordered by `s` gives the
equalized buffer reordered by `s`. -/
theorem commutes_with_reordering (gray : List Byte) (h2 : ∃ x ∈ gray, ∃ y ∈ gray, x ≠ y)
    (hfit : gray.length ≤ 8421504) (s : Equiv.Perm (Fin gray.length)) :
    ∃ out, ∃ hlen : out.length = gray.length,
      histogram_equalization gray = .ok out ∧
      histogram_equalization (List.ofFn (fun i => gray.get (s i)))
        = .ok (List.ofFn (fun i => out.get (Fin.cast hlen.symm (s i)))) := by
  have hpos : gray ≠ [] := by
    rcases h2 with ⟨x, hx, _⟩
    exact List.ne_nil_of_mem hx
  rcases exists_darkest gray hpos with ⟨lo, hlo, hmin⟩
  have hne := exists_other gray lo h2
  have hperm : (List.ofFn (fun i => gray.get (s i))).Perm gray := by
    have h := s.ofFn_comp_perm gray.get
    rw [List.ofFn_get] at h
    exact h
  refine ⟨gray.map (equalized gray lo), List.length_map _ _,
    histogram_equalization_eq_map gray lo hlo hmin hne (by omega), ?_⟩
  rw [histogram_equalization_perm gray _ hperm lo hlo hmin hne (by omega), List.map_ofFn]
  congr 2
  funext i
  simp

/-- C18, at the buffer `[3, 9, 3, 200]` with its first two positions exchanged. -/
theorem commutes_with_reordering_witness :
    ∃ out, ∃ hlen : out.length = ([3, 9, 3, 200] : List Byte).length,
      histogram_equalization [3, 9, 3, 200] = .ok out ∧
      histogram_equalization (List.ofFn (fun i => ([3, 9, 3, 200] : List Byte).get
          (Equiv.swap (⟨0, by decide⟩ : Fin ([3, 9, 3, 200] : List Byte).length)
            ⟨1, by decide⟩ i)))
        = .ok (List.ofFn (fun i => out.get (Fin.cast hlen.symm
            (Equiv.swap (⟨0, by decide⟩ : Fin ([3, 9, 3, 200] : List Byte).length)
              ⟨1, by decide⟩ i)))) :=
  commutes_with_reordering [3, 9, 3, 200] ⟨3, by simp, 9, by simp, by decide⟩ (by simp)
    (Equiv.swap ⟨0, by decide⟩ ⟨1, by decide⟩)

end HistEq
